import Mathlib

/-!
Verification of the ring-buffer FIFO queue (package `queue`).

The Go code is shallowly embedded: the buffer `[]interface{}` / `[]*V`
becomes `List (Option V)` (a slot holding `none` is the empty marker that
the Go code writes as `nil`), the `head`/`tail`/`count` fields become
naturals, and every operation is a pure function from the queue state.
Fallible operations return an `Except QueueError` result; operations that
also mutate state return the new state alongside the result, and an early
error return leaves the state component untouched, exactly as the Go
methods leave the receiver untouched.

The bitwise modulus of the source (`x & (len-1)`, valid because the buffer
length is a power of two) is embedded literally as `x &&& (len - 1)`,
likewise `count << 1` and `count << 2` as `<<<`.
-/

/-- The constant `minQueueLen`: smallest capacity the queue may have.
Must be a power of 2 for the bitwise modulus. -/
def minQueueLen : Nat := 16

/-- The two error values `ErrQueueEmpty` and `ErrIndexOutOfRange`. -/
inductive QueueError where
  | errQueueEmpty
  | errIndexOutOfRange
deriving DecidableEq, Repr

/-- The `Queue` struct: buffer, head, tail and count.  A buffer slot holds
`none` where the Go slot holds `nil` (the empty marker). -/
structure Queue (V : Type) where
  buf : List (Option V)
  head : Nat
  tail : Nat
  count : Nat
deriving DecidableEq, Repr

variable {V : Type}

/-- The constructor `New()`: a buffer of `minQueueLen` empty slots,
`head = tail = count = 0`. -/
def Queue.new (V : Type) : Queue V :=
  { buf := List.replicate minQueueLen none, head := 0, tail := 0, count := 0 }

/-- The method `Length()`: returns `count`. -/
def Queue.length (q : Queue V) : Nat := q.count

/-- The method `Capacity()`: returns `len(buf)`. -/
def Queue.capacity (q : Queue V) : Nat := q.buf.length

/-- The internal `resize()`: allocates `newBuf` of length `count << 1`
(all empty), copies `buf[head:tail]` when `tail > head`, and otherwise
copies `buf[head:]` followed by `buf[:tail]`; Go's `copy` truncates at the
destination length, which `List.take` models, and the slots it does not
reach keep their zero value `nil`, which the `replicate none` padding
models.  Then `head = 0`, `tail = count`. -/
def Queue.resize (q : Queue V) : Queue V :=
  let src := if q.tail > q.head then (q.buf.drop q.head).take (q.tail - q.head)
             else q.buf.drop q.head ++ q.buf.take q.tail
  { buf := src.take (q.count <<< 1) ++ List.replicate (q.count <<< 1 - src.length) none
    head := 0
    tail := q.count
    count := q.count }

/-- The method `Add(elem)`: resize when `count == len(buf)`, write the
element at `tail`, advance `tail` by the bitwise modulus, increment
`count`. -/
def Queue.add (q : Queue V) (v : V) : Queue V :=
  let q := if q.count = q.buf.length then q.resize else q
  { buf := q.buf.set q.tail (some v)
    head := q.head
    tail := (q.tail + 1) &&& ((q.buf.set q.tail (some v)).length - 1)
    count := q.count + 1 }

/-- The method `Peek()`: error when `count <= 0`, otherwise read
`buf[head]` without mutating anything. -/
def Queue.peek (q : Queue V) : Except QueueError (Option V) :=
  if q.count ≤ 0 then Except.error QueueError.errQueueEmpty
  else Except.ok (q.buf.getD q.head none)

/-- The method `Get(i)`: negative `i` is first converted by `i += count`;
then an index outside `[0, count)` is an error, and otherwise the slot at
`(head + i) & (len(buf) - 1)` is read.  No state is mutated. -/
def Queue.get (q : Queue V) (i : Int) : Except QueueError (Option V) :=
  let i := if i < 0 then i + (q.count : Int) else i
  if i < 0 ∨ (q.count : Int) ≤ i then Except.error QueueError.errIndexOutOfRange
  else Except.ok (q.buf.getD ((q.head + i.toNat) &&& (q.buf.length - 1)) none)

/-- The method `Remove()`: error when `count <= 0` (state untouched);
otherwise capture `buf[head]`, clear that slot to the empty marker,
advance `head` by the bitwise modulus, decrement `count`, and resize down
when the buffer is above the minimum length and exactly 1/4 full. -/
def Queue.remove (q : Queue V) : Except QueueError (Option V) × Queue V :=
  if q.count ≤ 0 then (Except.error QueueError.errQueueEmpty, q)
  else
    let ret := q.buf.getD q.head none
    let buf := q.buf.set q.head none
    let q1 : Queue V := { buf := buf, head := (q.head + 1) &&& (buf.length - 1),
                          tail := q.tail, count := q.count - 1 }
    let q2 := if minQueueLen < q1.buf.length ∧ q1.count <<< 2 = q1.buf.length
              then q1.resize else q1
    (Except.ok ret, q2)

/-- The method `Pop()`: returns `(nil, false)` on an empty queue (state
untouched); otherwise performs exactly the `Remove` transition and returns
the captured head value with `true`. -/
def Queue.pop (q : Queue V) : (Option V × Bool) × Queue V :=
  if q.count ≤ 0 then ((none, false), q)
  else
    let ret := q.buf.getD q.head none
    let buf := q.buf.set q.head none
    let q1 : Queue V := { buf := buf, head := (q.head + 1) &&& (buf.length - 1),
                          tail := q.tail, count := q.count - 1 }
    let q2 := if minQueueLen < q1.buf.length ∧ q1.count <<< 2 = q1.buf.length
              then q1.resize else q1
    ((ret, true), q2)

/-- The loop of `Clear()`: `for h := head; h != tail; h = (h+1) & (len-1)`
clearing each visited slot.  The loop is embedded with explicit fuel; the
Go loop performs at most `len(buf)` iterations whenever it terminates, so
fuel `len(buf) + 1` never cuts a terminating run short. -/
def clearLoop (buf : List (Option V)) (h tl fuel : Nat) : List (Option V) :=
  match fuel with
  | 0 => buf
  | Nat.succ fuel =>
    if h = tl then buf
    else clearLoop (buf.set h none) ((h + 1) &&& (buf.length - 1)) tl fuel

/-- The method `Clear()`: clears the slots the loop visits, then resets
`head = tail = count = 0`, keeping the buffer (hence the capacity). -/
def Queue.clear (q : Queue V) : Queue V :=
  { buf := clearLoop q.buf q.head q.tail (q.buf.length + 1)
    head := 0, tail := 0, count := 0 }

/-- Abstraction: the slot holding the i-th oldest element. -/
def Queue.slot (q : Queue V) (i : Nat) : Option V :=
  q.buf.getD ((q.head + i) % q.buf.length) none

/-- Abstraction: the logical contents of the queue, oldest first. -/
def Queue.toList (q : Queue V) : List (Option V) :=
  (List.range q.count).map q.slot

/-- Well-formedness of a queue state: capacity at least `minQueueLen` and
a power of two, `count` within capacity, `head` in range, and `tail` the
circular offset of `head` by `count`.  (The power-of-two clause carries the
bound `k < length` — true for any power of two — so that the whole
predicate is decidable and concrete states can be checked by `decide`.) -/
def Queue.wf (q : Queue V) : Prop :=
  minQueueLen ≤ q.buf.length ∧
  (∃ k, k < q.buf.length ∧ q.buf.length = 2 ^ k) ∧
  q.count ≤ q.buf.length ∧
  q.head < q.buf.length ∧
  q.tail = (q.head + q.count) % q.buf.length

/-- Every slot outside the live range holds the empty marker.  This holds
for freshly constructed queues and is kept by Add/Remove/Pop/resize, but
`Clear` on a completely full queue breaks it (its loop exits at once). -/
def Queue.freeNone (q : Queue V) : Prop :=
  ∀ j, j < q.buf.length →
    (∀ k, k < q.count → j ≠ (q.head + k) % q.buf.length) →
    q.buf.getD j none = none

/-- Fold a list of values into the queue by successive `Add` calls. -/
def addAll (q : Queue V) (vs : List V) : Queue V :=
  vs.foldl Queue.add q

/-- Perform `n` successive `Remove` calls, collecting each call's result
in order and threading the state. -/
def removeN (q : Queue V) : Nat → List (Except QueueError (Option V)) × Queue V
  | 0 => ([], q)
  | Nat.succ n =>
    let r := q.remove
    let rest := removeN r.2 n
    (r.1 :: rest.1, rest.2)

/-- The public operations, for stating properties of arbitrary call
sequences.  `peek`, `get` and `length` do not change the state. -/
inductive Op (V : Type) where
  | add (v : V)
  | remove
  | pop
  | clear
  | peek
  | get (i : Int)
  | length
deriving DecidableEq, Repr

/-- State transition of one public operation. -/
def Queue.applyOp (q : Queue V) : Op V → Queue V
  | Op.add v => q.add v
  | Op.remove => q.remove.2
  | Op.pop => q.pop.2
  | Op.clear => q.clear
  | Op.peek => q
  | Op.get _ => q
  | Op.length => q

/-- Run a sequence of public operations from a given state. -/
def runOps (q : Queue V) (ops : List (Op V)) : Queue V :=
  ops.foldl Queue.applyOp q

/-- Bookkeeping count from the spec: the number of Add calls minus the
number of successful Remove/Pop calls since the last Clear (a Remove/Pop
on an empty queue is unsuccessful and leaves the tally alone, which the
truncated subtraction expresses). -/
def netLength (n : Nat) : List (Op V) → Nat
  | [] => n
  | op :: ops =>
    match op with
    | Op.add _ => netLength (n + 1) ops
    | Op.remove => netLength (n - 1) ops
    | Op.pop => netLength (n - 1) ops
    | Op.clear => netLength 0 ops
    | _ => netLength n ops

instance (q : Queue V) : Decidable q.wf := by
  unfold Queue.wf; infer_instance

instance [DecidableEq V] (q : Queue V) : Decidable q.freeNone := by
  unfold Queue.freeNone; infer_instance

instance {ε α : Type} [DecidableEq ε] [DecidableEq α] : DecidableEq (Except ε α) := fun a b =>
  match a, b with
  | Except.ok x, Except.ok y =>
    if h : x = y then Decidable.isTrue (h ▸ rfl)
    else Decidable.isFalse (fun he => h (by cases he; rfl))
  | Except.ok _, Except.error _ => Decidable.isFalse (fun he => Except.noConfusion he)
  | Except.error _, Except.ok _ => Decidable.isFalse (fun he => Except.noConfusion he)
  | Except.error x, Except.error y =>
    if h : x = y then Decidable.isTrue (h ▸ rfl)
    else Decidable.isFalse (fun he => h (by cases he; rfl))

theorem getD_set_self {α : Type} (l : List α) (i : Nat) (a d : α) (h : i < l.length) :
    (l.set i a).getD i d = a := by
  simp [List.getD_eq_getElem?_getD, List.getElem?_set, h]

theorem getD_set_ne {α : Type} (l : List α) {i j : Nat} (a d : α) (h : i ≠ j) :
    (l.set i a).getD j d = l.getD j d := by
  simp [List.getD_eq_getElem?_getD, List.getElem?_set_ne h]

theorem getD_append_left {α : Type} {l₁ l₂ : List α} {n : Nat} (d : α) (h : n < l₁.length) :
    (l₁ ++ l₂).getD n d = l₁.getD n d := by
  simp [List.getD_eq_getElem?_getD, List.getElem?_append, h]

theorem getD_append_right {α : Type} {l₁ l₂ : List α} {n : Nat} (d : α) (h : l₁.length ≤ n) :
    (l₁ ++ l₂).getD n d = l₂.getD (n - l₁.length) d := by
  simp [List.getD_eq_getElem?_getD, List.getElem?_append_right h]

theorem getD_take {α : Type} {l : List α} {n m : Nat} (d : α) (h : m < n) :
    (l.take n).getD m d = l.getD m d := by
  simp [List.getD_eq_getElem?_getD, List.getElem?_take, h]

theorem getD_drop {α : Type} (l : List α) (i j : Nat) (d : α) :
    (l.drop i).getD j d = l.getD (i + j) d := by
  simp [List.getD_eq_getElem?_getD, List.getElem?_drop]

theorem getD_replicate_self {α : Type} (n m : Nat) (a : α) :
    (List.replicate n a).getD m a = a := by
  simp [List.getD_eq_getElem?_getD, List.getElem?_replicate]
  split <;> rfl

theorem mask_eq_mod (x n : Nat) (h : ∃ k, k < n ∧ n = 2 ^ k) : x &&& (n - 1) = x % n := by
  obtain ⟨k, -, rfl⟩ := h
  exact Nat.and_pow_two_sub_one_eq_mod x k

theorem mod_add_inj {n h a b : Nat} (ha : a < n) (hb : b < n)
    (e : (h + a) % n = (h + b) % n) : a = b := by
  have h2 : a ≡ b [MOD n] := Nat.ModEq.add_left_cancel' h e
  calc a = a % n := (Nat.mod_eq_of_lt ha).symm
    _ = b % n := h2
    _ = b := Nat.mod_eq_of_lt hb

theorem mod_split {h c len : Nat} (hh : h < len) (hc : c ≤ len) :
    (h + c) % len = if h + c < len then h + c else h + c - len := by
  split
  · exact Nat.mod_eq_of_lt (by assumption)
  · rw [Nat.mod_eq_sub_mod (by omega)]
    exact Nat.mod_eq_of_lt (by omega)

theorem Queue.resize_head (q : Queue V) : q.resize.head = 0 := rfl

theorem Queue.resize_tail (q : Queue V) : q.resize.tail = q.count := rfl

theorem Queue.resize_count (q : Queue V) : q.resize.count = q.count := rfl

theorem Queue.resize_buf_length (q : Queue V) : q.resize.buf.length = 2 * q.count := by
  unfold Queue.resize
  dsimp only
  split <;>
    simp [Nat.shiftLeft_eq, List.length_take, List.length_drop, List.length_append,
      List.length_replicate] <;>
    omega

theorem Queue.resize_slot (q : Queue V) (hh : q.head < q.buf.length)
    (hc : q.count ≤ q.buf.length) (ht : q.tail = (q.head + q.count) % q.buf.length)
    {i : Nat} (hi : i < q.count) :
    q.resize.slot i = q.slot i := by
  have hi2 : i < 2 * q.count := by omega
  have hrl := q.resize_buf_length
  unfold Queue.slot
  rw [Queue.resize_head, hrl, Nat.zero_add, Nat.mod_eq_of_lt hi2]
  unfold Queue.resize
  dsimp only
  by_cases hcase : q.tail > q.head
  · rw [if_pos hcase]
    have hA : q.head + q.count < q.buf.length := by
      by_contra hge
      push_neg at hge
      have htv : q.tail = q.head + q.count - q.buf.length := by
        rw [ht, mod_split hh hc, if_neg (by omega)]
      omega
    have htv : q.tail = q.head + q.count := by rw [ht, Nat.mod_eq_of_lt hA]
    rw [getD_append_left none
      (by simp [List.length_take, List.length_drop, Nat.shiftLeft_eq]; omega)]
    rw [getD_take none (by simp [Nat.shiftLeft_eq]; omega)]
    rw [getD_take none (by omega)]
    rw [getD_drop]
    rw [Nat.mod_eq_of_lt (by omega)]
  · rw [if_neg hcase]
    rcases Nat.lt_or_ge (q.head + q.count) q.buf.length with hlt | hge
    · have htv : q.tail = q.head + q.count := by rw [ht, Nat.mod_eq_of_lt hlt]
      omega
    · have htv : q.tail = q.head + q.count - q.buf.length := by
        rw [ht, mod_split hh hc, if_neg (by omega)]
      have hsrclen : (q.buf.drop q.head ++ q.buf.take q.tail).length = q.count := by
        simp [List.length_append, List.length_drop, List.length_take]
        omega
      rw [getD_append_left none
        (by simp [List.length_take, hsrclen, Nat.shiftLeft_eq]; omega)]
      rw [getD_take none (by simp [Nat.shiftLeft_eq]; omega)]
      rcases Nat.lt_or_ge i (q.buf.length - q.head) with hil | hir
      · rw [getD_append_left none (by simp [List.length_drop]; omega)]
        rw [getD_drop]
        rw [Nat.mod_eq_of_lt (by omega)]
      · rw [getD_append_right none (by simp [List.length_drop]; omega)]
        rw [getD_take none (by simp [List.length_drop]; omega)]
        have hmod : (q.head + i) % q.buf.length = q.head + i - q.buf.length := by
          rw [mod_split hh (Nat.le_of_lt (Nat.lt_of_lt_of_le hi hc)), if_neg (by omega)]
        rw [hmod]
        have hidx : i - (q.buf.drop q.head).length = q.head + i - q.buf.length := by
          simp [List.length_drop]
          omega
        rw [hidx]

theorem Queue.toList_eq_of_slots {q r : Queue V} (hc : r.count = q.count)
    (hs : ∀ i, i < q.count → r.slot i = q.slot i) : r.toList = q.toList := by
  unfold Queue.toList
  rw [hc]
  apply List.map_congr_left
  intro a ha
  exact hs a (List.mem_range.mp ha)

theorem Queue.resize_toList (q : Queue V) (hh : q.head < q.buf.length)
    (hc : q.count ≤ q.buf.length) (ht : q.tail = (q.head + q.count) % q.buf.length) :
    q.resize.toList = q.toList :=
  Queue.toList_eq_of_slots q.resize_count (fun _ hi => q.resize_slot hh hc ht hi)

theorem Queue.toList_length (q : Queue V) : q.toList.length = q.count := by
  simp [Queue.toList]

theorem Queue.new_wf (V : Type) : (Queue.new V).wf := by
  refine ⟨?_, ⟨4, ?_, ?_⟩, ?_, ?_, ?_⟩ <;> simp [Queue.new, minQueueLen]

theorem Queue.new_toList (V : Type) : (Queue.new V).toList = [] := rfl

theorem writeStep (p : Queue V) (hwf : p.wf) (hlt : p.count < p.buf.length) (v : V) :
    (Queue.mk (p.buf.set p.tail (some v)) p.head
      ((p.tail + 1) &&& ((p.buf.set p.tail (some v)).length - 1)) (p.count + 1)).wf ∧
    (Queue.mk (p.buf.set p.tail (some v)) p.head
      ((p.tail + 1) &&& ((p.buf.set p.tail (some v)).length - 1)) (p.count + 1)).toList
      = p.toList ++ [some v] := by
  obtain ⟨h16, hp2, hcle, hh, ht⟩ := hwf
  have hlen0 : 0 < p.buf.length := by omega
  constructor
  · refine ⟨?_, ?_, ?_, ?_, ?_⟩ <;> simp only [List.length_set]
    · exact h16
    · exact hp2
    · omega
    · exact hh
    · rw [mask_eq_mod _ _ hp2, ht, Nat.mod_add_mod, Nat.add_assoc]
  · unfold Queue.toList Queue.slot
    dsimp only
    simp only [List.length_set, List.range_succ, List.map_append]
    congr 1
    · apply List.map_congr_left
      intro a ha
      have halt : a < p.count := List.mem_range.mp ha
      have hne : p.tail ≠ (p.head + a) % p.buf.length := by
        rw [ht]
        intro he
        exact absurd (mod_add_inj hlt (by omega) he) (by omega)
      exact getD_set_ne _ _ _ hne
    · simp only [List.map_cons, List.map_nil]
      congr 1
      rw [← ht]
      exact getD_set_self _ _ _ _ (by rw [ht]; exact Nat.mod_lt _ hlen0)

theorem Queue.ensure_wf (q : Queue V) (hwf : q.wf) (hfull : q.count = q.buf.length) :
    q.resize.wf ∧ q.resize.toList = q.toList ∧ q.resize.count < q.resize.buf.length := by
  obtain ⟨h16, hp2, hcle, hh, ht⟩ := hwf
  have hmin : minQueueLen = 16 := rfl
  have hcpos : 0 < q.count := by omega
  have hr := q.resize_buf_length
  refine ⟨⟨?_, ?_, ?_, ?_, ?_⟩, ?_, ?_⟩
  · rw [hr]; omega
  · rw [hr]
    obtain ⟨k, hk, hpk⟩ := hp2
    refine ⟨k + 1, by omega, ?_⟩
    rw [hfull, hpk, pow_succ]
    ring
  · rw [hr, Queue.resize_count]; omega
  · rw [Queue.resize_head, hr]; omega
  · rw [Queue.resize_tail, Queue.resize_count, Queue.resize_head, hr]
    rw [Nat.zero_add, Nat.mod_eq_of_lt (by omega)]
  · exact q.resize_toList hh hcle ht
  · rw [Queue.resize_count, hr]; omega

theorem Queue.add_spec (q : Queue V) (hwf : q.wf) (v : V) :
    (q.add v).wf ∧ (q.add v).toList = q.toList ++ [some v] := by
  unfold Queue.add
  dsimp only
  by_cases hfull : q.count = q.buf.length
  · rw [if_pos hfull]
    obtain ⟨hwf1, htl1, hlt1⟩ := q.ensure_wf hwf hfull
    have hsp := writeStep q.resize hwf1 hlt1 v
    exact ⟨hsp.1, by rw [hsp.2, htl1]⟩
  · rw [if_neg hfull]
    exact writeStep q hwf (Nat.lt_of_le_of_ne hwf.2.2.1 hfull) v

theorem Queue.toList_drop_one (p : Queue V) (hpos : 0 < p.count) :
    p.toList.drop 1 = (List.range (p.count - 1)).map (fun i => p.slot (i + 1)) := by
  unfold Queue.toList
  conv_lhs => rw [show p.count = (p.count - 1) + 1 from by omega, List.range_succ_eq_map]
  simp [List.map_map, Function.comp, Nat.succ_eq_add_one]

theorem dropStep (p : Queue V) (hwf : p.wf) (hpos : 0 < p.count) :
    (Queue.mk (p.buf.set p.head none)
      ((p.head + 1) &&& ((p.buf.set p.head none).length - 1)) p.tail (p.count - 1)).wf ∧
    (Queue.mk (p.buf.set p.head none)
      ((p.head + 1) &&& ((p.buf.set p.head none).length - 1)) p.tail (p.count - 1)).toList
      = p.toList.drop 1 := by
  obtain ⟨h16, hp2, hcle, hh, ht⟩ := hwf
  have hlen0 : 0 < p.buf.length := by omega
  constructor
  · refine ⟨?_, ?_, ?_, ?_, ?_⟩ <;> simp only [List.length_set]
    · exact h16
    · exact hp2
    · omega
    · rw [mask_eq_mod _ _ hp2]
      exact Nat.mod_lt _ hlen0
    · rw [mask_eq_mod _ _ hp2, Nat.mod_add_mod,
        show p.head + 1 + (p.count - 1) = p.head + p.count from by omega]
      exact ht
  · rw [Queue.toList_drop_one p hpos]
    unfold Queue.toList Queue.slot
    dsimp only
    simp only [List.length_set]
    rw [mask_eq_mod _ _ hp2]
    apply List.map_congr_left
    intro a ha
    have halt : a < p.count - 1 := List.mem_range.mp ha
    rw [Nat.mod_add_mod, show p.head + 1 + a = p.head + (a + 1) from by omega]
    have hne : p.head ≠ (p.head + (a + 1)) % p.buf.length := by
      intro he
      have he2 : (p.head + 0) % p.buf.length = (p.head + (a + 1)) % p.buf.length := by
        rw [Nat.add_zero, Nat.mod_eq_of_lt hh]
        exact he
      exact absurd (mod_add_inj hlen0 (by omega) he2) (by omega)
    rw [getD_set_ne _ _ _ hne]

theorem condResize (p : Queue V) (hwf : p.wf) :
    (if minQueueLen < p.buf.length ∧ p.count <<< 2 = p.buf.length then p.resize else p).wf ∧
    (if minQueueLen < p.buf.length ∧ p.count <<< 2 = p.buf.length then p.resize else p).toList
      = p.toList := by
  obtain ⟨h16, hp2, hcle, hh, ht⟩ := hwf
  have h16x : 16 ≤ p.buf.length := h16
  split
  case isTrue hcond =>
    obtain ⟨hgt, hquarter⟩ := hcond
    have hgt16 : 16 < p.buf.length := hgt
    obtain ⟨k, hk, hpk⟩ := hp2
    have hq4 : 4 * p.count = p.buf.length := by
      rw [← hquarter, Nat.shiftLeft_eq]
      ring
    have hk5 : 5 ≤ k := by
      by_contra hle
      push_neg at hle
      have hb : p.buf.length ≤ 16 := by
        rw [hpk]
        calc (2:Nat) ^ k ≤ 2 ^ 4 := Nat.pow_le_pow_right (by omega) (by omega)
          _ = 16 := by norm_num
      omega
    have hsplit : (2:Nat) ^ k = 2 ^ (k - 1) * 2 := by
      rw [← pow_succ, show k - 1 + 1 = k from by omega]
    have h2c : 2 * p.count = 2 ^ (k - 1) := by
      have h4 := hq4
      rw [hpk, hsplit] at h4
      omega
    have hcpos : 0 < p.count := by omega
    have hrl := p.resize_buf_length
    refine ⟨⟨?_, ?_, ?_, ?_, ?_⟩, p.resize_toList hh hcle ht⟩
    · rw [hrl]
      calc (16:Nat) = 2 ^ 4 := by norm_num
        _ ≤ 2 ^ (k - 1) := Nat.pow_le_pow_right (by omega) (by omega)
        _ = 2 * p.count := h2c.symm
    · rw [hrl]
      refine ⟨k - 1, ?_, ?_⟩
      · rw [h2c]
        exact Nat.lt_two_pow _
      · exact h2c
    · rw [hrl, Queue.resize_count]
      omega
    · rw [Queue.resize_head, hrl]
      omega
    · rw [Queue.resize_tail, Queue.resize_count, Queue.resize_head, hrl, Nat.zero_add,
        Nat.mod_eq_of_lt (by omega)]
  case isFalse hcond =>
    exact ⟨⟨h16, hp2, hcle, hh, ht⟩, rfl⟩

theorem Queue.remove_spec (q : Queue V) (hwf : q.wf) (hpos : 0 < q.count) :
    q.remove.1 = Except.ok (q.toList.getD 0 none) ∧
    q.remove.2.wf ∧ q.remove.2.toList = q.toList.drop 1 := by
  have h0 : q.toList.getD 0 none = q.buf.getD q.head none := by
    unfold Queue.toList Queue.slot
    rw [List.getD_eq_getElem?_getD, List.getElem?_map, List.getElem?_range hpos]
    dsimp
    rw [Nat.mod_eq_of_lt hwf.2.2.2.1]
  obtain ⟨hd_wf, hd_tl⟩ := dropStep q hwf hpos
  obtain ⟨hc_wf, hc_tl⟩ := condResize _ hd_wf
  unfold Queue.remove
  rw [if_neg (by omega)]
  dsimp only
  exact ⟨by rw [h0], hc_wf, by rw [hc_tl, hd_tl]⟩

theorem Queue.remove_wf (q : Queue V) (hwf : q.wf) : q.remove.2.wf := by
  rcases Nat.eq_zero_or_pos q.count with h0 | hpos
  · unfold Queue.remove
    rw [if_pos (by omega)]
    exact hwf
  · exact (q.remove_spec hwf hpos).2.1

theorem Queue.remove_count (q : Queue V) (hwf : q.wf) : q.remove.2.count = q.count - 1 := by
  rcases Nat.eq_zero_or_pos q.count with h0 | hpos
  · unfold Queue.remove
    rw [if_pos (by omega)]
    dsimp only
    omega
  · have h := congrArg List.length (q.remove_spec hwf hpos).2.2
    simpa [Queue.toList_length] using h

theorem Queue.pop_state (q : Queue V) : q.pop.2 = q.remove.2 := by
  unfold Queue.pop Queue.remove
  by_cases h : q.count ≤ 0
  · rw [if_pos h, if_pos h]
  · rw [if_neg h, if_neg h]

theorem Queue.add_count (q : Queue V) (v : V) : (q.add v).count = q.count + 1 := by
  unfold Queue.add
  dsimp only
  by_cases hfull : q.count = q.buf.length
  · rw [if_pos hfull]
    rfl
  · rw [if_neg hfull]

theorem Queue.add_capacity (q : Queue V) (v : V) :
    (q.add v).buf.length = if q.count = q.buf.length then 2 * q.count else q.buf.length := by
  unfold Queue.add
  dsimp only
  by_cases hfull : q.count = q.buf.length
  · rw [if_pos hfull, if_pos hfull]
    rw [List.length_set, Queue.resize_buf_length]
  · rw [if_neg hfull, if_neg hfull]
    rw [List.length_set]

theorem clearLoop_length (buf : List (Option V)) (h tl fuel : Nat) :
    (clearLoop buf h tl fuel).length = buf.length := by
  induction fuel generalizing buf h with
  | zero => rfl
  | succ n ih =>
    unfold clearLoop
    split
    · rfl
    · rw [ih, List.length_set]

theorem Queue.clear_capacity (q : Queue V) : q.clear.buf.length = q.buf.length :=
  clearLoop_length q.buf q.head q.tail (q.buf.length + 1)

theorem Queue.clear_wf (q : Queue V) (hwf : q.wf) : q.clear.wf := by
  obtain ⟨h16, hp2, hcle, hh, ht⟩ := hwf
  have hl := q.clear_capacity
  have hlen0 : 0 < q.buf.length := by omega
  refine ⟨?_, ?_, ?_, ?_, ?_⟩ <;> rw [hl]
  · exact h16
  · exact hp2
  · exact Nat.zero_le _
  · exact hlen0
  · simp [Queue.clear]

theorem Queue.clear_toList (q : Queue V) : q.clear.toList = [] := rfl

theorem addAll_spec (vs : List V) (q : Queue V) (hwf : q.wf) :
    (addAll q vs).wf ∧ (addAll q vs).toList = q.toList ++ vs.map some := by
  induction vs generalizing q with
  | nil => simpa [addAll] using hwf
  | cons v t ih =>
    have ha := q.add_spec hwf v
    obtain ⟨hw, htl⟩ := ih (q.add v) ha.1
    refine ⟨by simpa [addAll, List.foldl_cons] using hw, ?_⟩
    have he : addAll q (v :: t) = addAll (q.add v) t := by
      simp [addAll, List.foldl_cons]
    rw [he, htl, ha.2]
    simp

theorem removeN_spec (l : List (Option V)) (q : Queue V) (hwf : q.wf) (htl : q.toList = l) :
    (removeN q l.length).1 = l.map Except.ok := by
  induction l generalizing q with
  | nil => simp [removeN]
  | cons a t ih =>
    have hcount : q.count = t.length + 1 := by
      have hlen := q.toList_length
      rw [htl] at hlen
      simpa using hlen.symm
    have hpos : 0 < q.count := by omega
    obtain ⟨h1, h2, h3⟩ := q.remove_spec hwf hpos
    simp only [List.length_cons, removeN, List.map_cons]
    congr 1
    · rw [h1, htl]
      rfl
    · exact ih q.remove.2 h2 (by rw [h3, htl]; rfl)

theorem Queue.toList_getD (q : Queue V) {n : Nat} (hn : n < q.count) :
    q.toList.getD n none = q.slot n := by
  unfold Queue.toList
  rw [List.getD_eq_getElem?_getD, List.getElem?_map, List.getElem?_range hn]
  rfl

theorem Queue.get_char (q : Queue V) (hlen : ∃ k, k < q.buf.length ∧ q.buf.length = 2 ^ k)
    (i : Int) :
    q.get i = (let j := if i < 0 then i + (q.count : Int) else i
      if 0 ≤ j ∧ j < (q.count : Int) then Except.ok (q.toList.getD j.toNat none)
      else Except.error QueueError.errIndexOutOfRange) := by
  unfold Queue.get
  dsimp only
  generalize (if i < 0 then i + (q.count : Int) else i) = j
  by_cases hr : j < 0 ∨ (q.count : Int) ≤ j
  · rw [if_pos hr, if_neg (by omega)]
  · rw [if_neg hr, if_pos (by omega)]
    have hjc : j.toNat < q.count := by omega
    rw [mask_eq_mod _ _ hlen, q.toList_getD hjc]
    rfl

theorem Queue.applyOp_wf_count (q : Queue V) (hwf : q.wf) (op : Op V) :
    (q.applyOp op).wf ∧
    (q.applyOp op).count = (match op with
      | Op.add _ => q.count + 1
      | Op.remove => q.count - 1
      | Op.pop => q.count - 1
      | Op.clear => 0
      | _ => q.count) := by
  cases op with
  | add v => exact ⟨(q.add_spec hwf v).1, q.add_count v⟩
  | remove => exact ⟨q.remove_wf hwf, q.remove_count hwf⟩
  | pop =>
    have hs : q.applyOp Op.pop = q.remove.2 := Queue.pop_state q
    rw [hs]
    exact ⟨q.remove_wf hwf, q.remove_count hwf⟩
  | clear => exact ⟨q.clear_wf hwf, rfl⟩
  | peek => exact ⟨hwf, rfl⟩
  | get i => exact ⟨hwf, rfl⟩
  | length => exact ⟨hwf, rfl⟩

theorem runOps_wf_netLength (ops : List (Op V)) (q : Queue V) (hwf : q.wf) :
    (runOps q ops).wf ∧ (runOps q ops).count = netLength q.count ops := by
  induction ops generalizing q with
  | nil => exact ⟨hwf, rfl⟩
  | cons op t ih =>
    obtain ⟨hw, hc⟩ := q.applyOp_wf_count hwf op
    obtain ⟨hw2, hc2⟩ := ih (q.applyOp op) hw
    have hrun : runOps q (op :: t) = runOps (q.applyOp op) t := by
      simp [runOps, List.foldl_cons]
    refine ⟨by rw [hrun]; exact hw2, ?_⟩
    rw [hrun, hc2, hc]
    cases op <;> simp [netLength]

theorem modeq_of_tail {len h c t : Nat} (ht : t = (h + c) % len) :
    Int.ModEq (len : Int) ((t : Int) - (h : Int)) (c : Int) := by
  subst ht
  have h1 : (((h + c) % len : Nat) : Int) ≡ ((h : Int) + (c : Int)) [ZMOD (len : Int)] := by
    rw [Int.ModEq, Int.natCast_mod, Int.emod_emod_of_dvd _ (dvd_refl _)]
    push_cast
    rfl
  have h2 := h1.sub_right (h : Int)
  have h3 : (h : Int) + (c : Int) - (h : Int) = (c : Int) := by ring
  rw [h3] at h2
  exact h2

/-- C1: for every N and every sequence of values v0..v(N-1), N `Add` calls
on a fresh queue followed by N `Remove` calls make every `Remove` succeed
and return v0, v1, ..., v(N-1) in exactly that order. -/
theorem C1_fifo_order (vs : List V) :
    (removeN (addAll (Queue.new V) vs) vs.length).1
      = vs.map (fun v => Except.ok (some v)) := by
  obtain ⟨hw, htl⟩ := addAll_spec vs (Queue.new V) (Queue.new_wf V)
  rw [Queue.new_toList] at htl
  simp only [List.nil_append] at htl
  have hm := removeN_spec (vs.map some) (addAll (Queue.new V) vs) hw htl
  rw [List.length_map] at hm
  rw [hm, List.map_map]
  rfl

/-- C2 (counterexample): after 16 Add calls on a fresh queue the buffer is
completely full — `count = 16`, `head = tail = 0`, capacity 16 — so the
claimed equality `count = (tail - head) mod capacity` reads `16 = 0` and is
false; the invariant only holds as a congruence modulo the capacity. -/
theorem C2_full_queue_breaks_mod_equality :
    ¬ (((runOps (Queue.new Nat) ((List.range 16).map Op.add)).count : Int)
      = (((runOps (Queue.new Nat) ((List.range 16).map Op.add)).tail : Int)
          - ((runOps (Queue.new Nat) ((List.range 16).map Op.add)).head : Int))
        % ((runOps (Queue.new Nat) ((List.range 16).map Op.add)).capacity : Int)) := by
  decide

/-- C2 (amended): for every sequence of public operations applied to a
fresh queue, afterwards the capacity is a power of two and at least
`minQueueLen`, `count` is at most the capacity, `count` is congruent to
`tail - head` modulo the capacity (the plain equality fails exactly when
the queue is full), and `Length()` equals the number of Add calls minus
the number of successful Remove/Pop calls since the last Clear. -/
theorem C2_invariants (ops : List (Op V)) :
    minQueueLen ≤ (runOps (Queue.new V) ops).capacity ∧
    (∃ k, (runOps (Queue.new V) ops).capacity = 2 ^ k) ∧
    (runOps (Queue.new V) ops).count ≤ (runOps (Queue.new V) ops).capacity ∧
    Int.ModEq ((runOps (Queue.new V) ops).capacity : Int)
      (((runOps (Queue.new V) ops).tail : Int) - ((runOps (Queue.new V) ops).head : Int))
      ((runOps (Queue.new V) ops).count : Int) ∧
    (runOps (Queue.new V) ops).length = netLength 0 ops := by
  obtain ⟨⟨h16, hp2, hcle, hh, ht⟩, hc⟩ := runOps_wf_netLength ops (Queue.new V) (Queue.new_wf V)
  refine ⟨h16, ?_, hcle, ?_, hc⟩
  · obtain ⟨k, -, hpk⟩ := hp2
    exact ⟨k, hpk⟩
  · exact modeq_of_tail ht

/-- C6: `Add` always succeeds and always inserts (count grows by one), and
it doubles the capacity exactly when `count` equals the capacity before
the insertion; concretely, 16 Add calls on a fresh queue cause no resize
(capacity stays 16 throughout), and the 17th Add doubles it to 32. -/
theorem C6_add_growth :
    (∀ (W : Type) (q : Queue W) (v : W), (q.add v).count = q.count + 1 ∧
      (q.add v).capacity = (if q.count = q.buf.length then 2 * q.count else q.buf.length)) ∧
    ((List.range 17).map (fun i => (addAll (Queue.new Nat) (List.range i)).capacity)
      = List.replicate 17 16) ∧
    (addAll (Queue.new Nat) (List.range 17)).capacity = 32 := by
  refine ⟨?_, by decide, by decide⟩
  intro W q v
  exact ⟨q.add_count v, q.add_capacity v⟩

theorem Queue.remove_capacity (q : Queue V) (hpos : 0 < q.count) :
    q.remove.2.buf.length
      = if minQueueLen < q.buf.length ∧ (q.count - 1) * 4 = q.buf.length
        then (q.count - 1) * 2 else q.buf.length := by
  unfold Queue.remove
  rw [if_neg (by omega)]
  dsimp only
  simp only [List.length_set]
  have hsh : (q.count - 1) <<< 2 = (q.count - 1) * 4 := by
    rw [Nat.shiftLeft_eq]
  rw [hsh]
  by_cases hcond : minQueueLen < q.buf.length ∧ (q.count - 1) * 4 = q.buf.length
  · rw [if_pos hcond, if_pos hcond, Queue.resize_buf_length]
    dsimp only
    omega
  · rw [if_neg hcond, if_neg hcond]
    dsimp only
    rw [List.length_set]

/-- C3: `Get` first normalizes a negative index by adding `count`, then
fails with `ErrIndexOutOfRange` exactly when the normalized index is
outside `[0, count)` and otherwise returns the element at that logical
position; in particular `Get(-1)` is the newest element, `Get(-n)` the
oldest, and `Get(-n-1)` fails.  `Get` takes the state only as input, so it
never mutates the queue. -/
theorem C3_get_indexing (q : Queue V) (hwf : q.wf) :
    (∀ i : Int,
      q.get i = (let j := if i < 0 then i + (q.count : Int) else i
        if 0 ≤ j ∧ j < (q.count : Int) then Except.ok (q.toList.getD j.toNat none)
        else Except.error QueueError.errIndexOutOfRange)) ∧
    (0 < q.count →
      q.get (-1) = Except.ok (q.toList.getD (q.count - 1) none) ∧
      q.get (-(q.count : Int)) = Except.ok (q.toList.getD 0 none)) ∧
    q.get (-(q.count : Int) - 1) = Except.error QueueError.errIndexOutOfRange := by
  have hchar := fun i => q.get_char hwf.2.1 i
  refine ⟨hchar, ?_, ?_⟩
  · intro hpos
    constructor
    · rw [hchar (-1)]
      dsimp only
      rw [if_pos (by omega : (-1 : Int) < 0), if_pos (by constructor <;> omega)]
      have hn : ((-1 : Int) + (q.count : Int)).toNat = q.count - 1 := by omega
      rw [hn]
    · rw [hchar (-(q.count : Int))]
      dsimp only
      rw [if_pos (by omega : -(q.count : Int) < 0), if_pos (by constructor <;> omega)]
      have hn : (-(q.count : Int) + (q.count : Int)).toNat = 0 := by omega
      rw [hn]
  · rw [hchar (-(q.count : Int) - 1)]
    dsimp only
    rw [if_pos (by omega : -(q.count : Int) - 1 < 0), if_neg (by omega)]

/-- C4: `Peek` and `Remove` fail with `ErrQueueEmpty` exactly when
`count = 0`, `Get` fails with `ErrIndexOutOfRange` exactly when its
normalized index is outside `[0, count)`, and a failing `Remove` leaves
the state untouched, so an immediate retry returns the identical result
(`Peek` and `Get` never change state in the embedding at all, as in the
source, where they only read the receiver). -/
theorem C4_error_conditions (q : Queue V) (i : Int) :
    (q.peek = Except.error QueueError.errQueueEmpty ↔ q.count = 0) ∧
    (q.remove.1 = Except.error QueueError.errQueueEmpty ↔ q.count = 0) ∧
    (q.count = 0 → q.remove.2 = q) ∧
    (q.count = 0 → q.remove.2.remove = q.remove) ∧
    (q.get i = Except.error QueueError.errIndexOutOfRange ↔
      (let j := if i < 0 then i + (q.count : Int) else i
       j < 0 ∨ (q.count : Int) ≤ j)) := by
  have hsnd : q.count = 0 → q.remove.2 = q := by
    intro h0
    unfold Queue.remove
    rw [if_pos (by omega)]
  refine ⟨?_, ?_, hsnd, ?_, ?_⟩
  · unfold Queue.peek
    by_cases h : q.count ≤ 0
    · rw [if_pos h]
      simp
      omega
    · rw [if_neg h]
      simp
      omega
  · unfold Queue.remove
    by_cases h : q.count ≤ 0
    · rw [if_pos h]
      simp
      omega
    · rw [if_neg h]
      simp
      omega
  · intro h0
    rw [hsnd h0]
  · unfold Queue.get
    dsimp only
    generalize (if i < 0 then i + (q.count : Int) else i) = j
    by_cases hr : j < 0 ∨ (q.count : Int) ≤ j
    · rw [if_pos hr]
      simp [hr]
    · rw [if_neg hr]
      simp [hr]

/-- C5: a `Remove` on a non-empty queue shrinks the buffer — to twice the
post-decrement count — exactly when the capacity exceeds `minQueueLen` and
four times the post-decrement count equals the capacity; any removal not
landing exactly on that 25 percent boundary keeps the capacity unchanged. -/
theorem C5_shrink_boundary (q : Queue V) (hpos : 0 < q.count) :
    q.remove.2.capacity
      = (if minQueueLen < q.capacity ∧ (q.count - 1) * 4 = q.capacity
         then (q.count - 1) * 2 else q.capacity) ∧
    (q.remove.2.capacity ≠ q.capacity ↔
      minQueueLen < q.capacity ∧ (q.count - 1) * 4 = q.capacity) := by
  have hcap := q.remove_capacity hpos
  have hm : minQueueLen = 16 := rfl
  unfold Queue.capacity
  refine ⟨hcap, ?_⟩
  by_cases hc : minQueueLen < q.buf.length ∧ (q.count - 1) * 4 = q.buf.length
  · rw [if_pos hc] at hcap
    rw [hcap]
    constructor
    · intro _
      exact hc
    · intro _
      omega
  · rw [if_neg hc] at hcap
    rw [hcap]
    simp [hc]

/-- C9: `Pop` and `Remove` perform the identical state transition on every
queue — including the conditional shrink — and differ only in signaling:
on a non-empty queue `Remove` returns the head value as a success result
while `Pop` returns it with `true`; on an empty queue `Remove` reports
`ErrQueueEmpty` while `Pop` reports `(nil, false)`, both leaving the
state unchanged. -/
theorem C9_pop_remove_equiv (q : Queue V) :
    q.pop.2 = q.remove.2 ∧
    (0 < q.count → ∃ r, q.remove.1 = Except.ok r ∧ q.pop.1 = (r, true)) ∧
    (q.count = 0 → q.pop.1 = (none, false) ∧
      q.remove.1 = Except.error QueueError.errQueueEmpty ∧ q.pop.2 = q) := by
  refine ⟨q.pop_state, ?_, ?_⟩
  · intro hpos
    refine ⟨q.buf.getD q.head none, ?_, ?_⟩
    · unfold Queue.remove
      rw [if_neg (by omega)]
    · unfold Queue.pop
      rw [if_neg (by omega)]
  · intro h0
    refine ⟨?_, ?_, ?_⟩
    · unfold Queue.pop
      rw [if_pos (by omega)]
    · unfold Queue.remove
      rw [if_pos (by omega)]
    · unfold Queue.pop
      rw [if_pos (by omega)]

/-- C10: on every well-formed non-empty queue, `Peek` succeeds, returns
the oldest element — the one `Get(0)` returns — and both only read the
slot at index `head` without changing any state. -/
theorem C10_peek_eq_get_zero (q : Queue V) (hwf : q.wf) (hpos : 0 < q.count) :
    q.peek = Except.ok (q.toList.getD 0 none) ∧ q.get 0 = q.peek := by
  have hp : q.peek = Except.ok (q.buf.getD q.head none) := by
    unfold Queue.peek
    rw [if_neg (by omega)]
  have h0 : q.toList.getD 0 none = q.buf.getD q.head none := by
    rw [q.toList_getD hpos]
    unfold Queue.slot
    rw [Nat.add_zero, Nat.mod_eq_of_lt hwf.2.2.2.1]
  refine ⟨by rw [hp, h0], ?_⟩
  rw [q.get_char hwf.2.1 0]
  dsimp only
  rw [if_neg (by omega : ¬ (0 : Int) < 0), if_pos (by constructor <;> omega)]
  rw [show Int.toNat 0 = 0 from rfl, hp, h0]

theorem clearLoop_getD {len : Nat} (hp2 : ∃ k, k < len ∧ len = 2 ^ k) :
    ∀ (c : Nat) (buf : List (Option V)) (h tl fuel : Nat),
      buf.length = len → h < len → c < len → tl = (h + c) % len → c + 1 ≤ fuel →
      ∀ j, (clearLoop buf h tl fuel).getD j none
        = if ∃ k, k < c ∧ j = (h + k) % len then none else buf.getD j none := by
  intro c
  induction c with
  | zero =>
    intro buf h tl fuel hlen hh hc htl hfuel j
    have htl' : tl = h := by rw [htl, Nat.add_zero, Nat.mod_eq_of_lt hh]
    cases fuel with
    | zero => exact absurd hfuel (by omega)
    | succ f =>
      unfold clearLoop
      rw [if_pos htl'.symm, if_neg (by rintro ⟨k, hk, -⟩; omega)]
  | succ c ih =>
    intro buf h tl fuel hlen hh hc htl hfuel j
    have hlen0 : 0 < len := by omega
    cases fuel with
    | zero => exact absurd hfuel (by omega)
    | succ f =>
      unfold clearLoop
      have hne : h ≠ tl := by
        intro he
        rw [htl] at he
        have he2 : (h + 0) % len = (h + (c + 1)) % len := by
          rw [Nat.add_zero, Nat.mod_eq_of_lt hh]
          exact he
        have := mod_add_inj hlen0 hc he2
        omega
      rw [if_neg hne]
      have hmask : (h + 1) &&& (buf.length - 1) = (h + 1) % len := by
        rw [hlen]
        exact mask_eq_mod _ _ hp2
      rw [hmask]
      have hih := ih (buf.set h none) ((h + 1) % len) tl f
        (by rw [List.length_set, hlen]) (Nat.mod_lt _ hlen0) (by omega)
        (by rw [htl, Nat.mod_add_mod, show h + 1 + c = h + (c + 1) from by omega])
        (by omega) j
      rw [hih]
      by_cases hj : ∃ k, k < c + 1 ∧ j = (h + k) % len
      · rw [if_pos hj]
        obtain ⟨k, hk, hjk⟩ := hj
        rcases Nat.eq_zero_or_pos k with hk0 | hkp
        · have hjh : j = h := by
            rw [hjk, hk0, Nat.add_zero, Nat.mod_eq_of_lt hh]
          by_cases hj2 : ∃ k2, k2 < c ∧ j = ((h + 1) % len + k2) % len
          · rw [if_pos hj2]
          · rw [if_neg hj2, hjh]
            exact getD_set_self _ _ _ _ (by omega)
        · have hj2 : ∃ k2, k2 < c ∧ j = ((h + 1) % len + k2) % len := by
            refine ⟨k - 1, by omega, ?_⟩
            rw [Nat.mod_add_mod, show h + 1 + (k - 1) = h + k from by omega]
            exact hjk
          rw [if_pos hj2]
      · rw [if_neg hj]
        have hj2 : ¬ ∃ k2, k2 < c ∧ j = ((h + 1) % len + k2) % len := by
          rintro ⟨k2, hk2, hjk2⟩
          refine hj ⟨k2 + 1, by omega, ?_⟩
          rw [hjk2, Nat.mod_add_mod, show h + 1 + k2 = h + (k2 + 1) from by omega]
        rw [if_neg hj2]
        have hjh : j ≠ h := by
          intro he
          exact hj ⟨0, by omega, by rw [he, Nat.add_zero, Nat.mod_eq_of_lt hh]⟩
        exact getD_set_ne _ _ _ (Ne.symm hjh)

/-- C7 (counterexample): the claim fails on a completely full queue.
After 16 Add calls on a fresh queue `head = tail`, so the Clear loop
guard `h != tail` is false immediately and not a single slot is cleared:
slot 0 still holds the value 0 even though the counters are reset. -/
theorem C7_full_clear_leaves_slots :
    ((addAll (Queue.new Nat) (List.range 16)).clear).buf.getD 0 none = some 0 ∧
    ((addAll (Queue.new Nat) (List.range 16)).clear).length = 0 ∧
    ¬ (∀ j, j < ((addAll (Queue.new Nat) (List.range 16)).clear).buf.length →
        ((addAll (Queue.new Nat) (List.range 16)).clear).buf.getD j none = none) := by
  exact ⟨by decide, by decide, by decide⟩

/-- C7 (amended): `Clear` always resets `head = tail = count = 0` — so
`Length()` becomes 0 — and always keeps the capacity.  When the queue is
not completely full and every free slot already holds the empty marker,
it moreover leaves every storage slot holding the empty marker; on a full
queue the loop guard `h != tail` fails at once and the slots keep their
values. -/
theorem C7_clear (q : Queue V) :
    (q.clear.length = 0 ∧ q.clear.head = 0 ∧ q.clear.tail = 0 ∧
      q.clear.capacity = q.capacity) ∧
    (q.wf → q.freeNone → q.count < q.capacity →
      ∀ j, j < q.clear.capacity → q.clear.buf.getD j none = none) := by
  refine ⟨⟨rfl, rfl, rfl, q.clear_capacity⟩, ?_⟩
  intro hwf hfree hlt j hj
  obtain ⟨h16, hp2, hcle, hh, ht⟩ := hwf
  unfold Queue.capacity at hlt hj
  rw [q.clear_capacity] at hj
  show (clearLoop q.buf q.head q.tail (q.buf.length + 1)).getD j none = none
  rw [clearLoop_getD hp2 q.count q.buf q.head q.tail (q.buf.length + 1) rfl hh hlt ht
    (by omega) j]
  split
  · rfl
  case isFalse hno =>
    exact hfree j hj (fun k hk he => hno ⟨k, hk, he⟩)

/-- C8: `resize` preserves the logical contents and their order: on any
well-formed queue whose doubled count is a power of two (as at both call
sites of `resize`), the result has `head = 0`, `tail = count`, the same
`count`, capacity `2 * count`, and `Get` answers exactly as before for
every index.  Concretely, filling a fresh queue to capacity, removing 3,
adding 3 (wrapping `head`/`tail`), then adding once more — which forces a
doubling resize whose copy is in two pieces — leaves Peek and Get
reflecting the elements 3..19 in FIFO order. -/
theorem C8_resize_preserves :
    (∀ (W : Type) (q : Queue W), q.wf → (∃ k, k < 2 * q.count ∧ 2 * q.count = 2 ^ k) →
      q.resize.toList = q.toList ∧ q.resize.head = 0 ∧ q.resize.tail = q.count ∧
      q.resize.count = q.count ∧ q.resize.capacity = 2 * q.count ∧
      ∀ i : Int, q.resize.get i = q.get i) ∧
    ((List.range 17).map
        (fun i => ((addAll (removeN (addAll (Queue.new Nat) (List.range 16)) 3).2
          [16, 17, 18]).add 19).get (Int.ofNat i))
      = (List.range 17).map (fun i => Except.ok (some (i + 3)))) ∧
    ((addAll (removeN (addAll (Queue.new Nat) (List.range 16)) 3).2
        [16, 17, 18]).add 19).peek = Except.ok (some 3) := by
  refine ⟨?_, by decide, by decide⟩
  intro W q hwf h2
  obtain ⟨h16, hp2, hcle, hh, ht⟩ := hwf
  have htl := q.resize_toList hh hcle ht
  refine ⟨htl, rfl, rfl, rfl, q.resize_buf_length, ?_⟩
  intro i
  rw [q.get_char hp2 i, (q.resize).get_char (by rw [q.resize_buf_length]; exact h2) i]
  dsimp only
  rw [Queue.resize_count, htl]

theorem C3_get_indexing_witness :
    (addAll (Queue.new Nat) [10, 20, 30]).wf ∧
    0 < (addAll (Queue.new Nat) [10, 20, 30]).count ∧
    (addAll (Queue.new Nat) [10, 20, 30]).get (-1) = Except.ok (some 30) :=
  ⟨by decide, by decide,
    ((C3_get_indexing (addAll (Queue.new Nat) [10, 20, 30]) (by decide)).2.1
      (by decide)).1.trans (by decide)⟩

theorem C4_error_conditions_witness :
    (Queue.new Nat).count = 0 ∧ (Queue.new Nat).remove.2 = Queue.new Nat :=
  ⟨rfl, (C4_error_conditions (Queue.new Nat) 0).2.2.1 rfl⟩

theorem C5_shrink_boundary_witness :
    0 < (removeN (addAll (Queue.new Nat) (List.range 17)) 8).2.count ∧
    (removeN (addAll (Queue.new Nat) (List.range 17)) 8).2.remove.2.capacity = 16 :=
  ⟨by decide,
    ((C5_shrink_boundary (removeN (addAll (Queue.new Nat) (List.range 17)) 8).2
      (by decide)).1).trans (by decide)⟩

theorem C7_clear_witness :
    (addAll (Queue.new Nat) [5, 6, 7]).wf ∧
    (addAll (Queue.new Nat) [5, 6, 7]).freeNone ∧
    (addAll (Queue.new Nat) [5, 6, 7]).count < (addAll (Queue.new Nat) [5, 6, 7]).capacity ∧
    0 < (addAll (Queue.new Nat) [5, 6, 7]).clear.capacity ∧
    (addAll (Queue.new Nat) [5, 6, 7]).clear.buf.getD 0 none = none :=
  ⟨by decide, by decide, by decide, by decide,
    (C7_clear (addAll (Queue.new Nat) [5, 6, 7])).2 (by decide) (by decide) (by decide)
      0 (by decide)⟩

theorem C8_resize_preserves_witness :
    (addAll (Queue.new Nat) (List.range 8)).wf ∧
    (∃ k, k < 2 * (addAll (Queue.new Nat) (List.range 8)).count ∧
      2 * (addAll (Queue.new Nat) (List.range 8)).count = 2 ^ k) ∧
    (addAll (Queue.new Nat) (List.range 8)).resize.get 0
      = (addAll (Queue.new Nat) (List.range 8)).get 0 :=
  ⟨by decide, ⟨4, by decide, by decide⟩,
    (C8_resize_preserves.1 Nat (addAll (Queue.new Nat) (List.range 8)) (by decide)
      ⟨4, by decide, by decide⟩).2.2.2.2.2 0⟩

theorem C9_pop_remove_equiv_witness :
    (Queue.new Nat).count = 0 ∧
    ((Queue.new Nat).pop.1 = (none, false) ∧
      (Queue.new Nat).remove.1 = Except.error QueueError.errQueueEmpty ∧
      (Queue.new Nat).pop.2 = Queue.new Nat) ∧
    0 < (addAll (Queue.new Nat) [7]).count ∧
    (∃ r, (addAll (Queue.new Nat) [7]).remove.1 = Except.ok r ∧
      (addAll (Queue.new Nat) [7]).pop.1 = (r, true)) :=
  ⟨rfl, (C9_pop_remove_equiv (Queue.new Nat)).2.2 rfl, by decide,
    (C9_pop_remove_equiv (addAll (Queue.new Nat) [7])).2.1 (by decide)⟩

theorem C10_peek_eq_get_zero_witness :
    (addAll (Queue.new Nat) [10, 20, 30]).wf ∧
    0 < (addAll (Queue.new Nat) [10, 20, 30]).count ∧
    (addAll (Queue.new Nat) [10, 20, 30]).peek = Except.ok (some 10) ∧
    (addAll (Queue.new Nat) [10, 20, 30]).get 0 = (addAll (Queue.new Nat) [10, 20, 30]).peek :=
  ⟨by decide, by decide,
    (C10_peek_eq_get_zero (addAll (Queue.new Nat) [10, 20, 30]) (by decide)
      (by decide)).1.trans (by decide),
    (C10_peek_eq_get_zero (addAll (Queue.new Nat) [10, 20, 30]) (by decide) (by decide)).2⟩
